import Mathlib

/-!
# Halide: block cache, fixed-point helpers and the matrix multiplication test

A shallow embedding of three source files and theorems about them:

* `src/autoschedulers/adams2019/Cache.h`: caching options and the block cache;
* `apps/hannk/halide/common_halide.cpp`: `multiply_2x_high`, `approx_log2`, `approx_exp2`;
* `test/performance/matrix_multiplication.cpp`: `simple_version` and the pipeline.

Machine integers are mathematical integers reduced explicitly to their bit width.
Definitions come first, theorems after.
-/

/-! ## Definitions -/

/-! Fixed-point helpers of apps/hannk/halide/common_halide.cpp. -/

namespace hannk

/-- A Halide scalar integer type: `Int(bits)` when `is_int`, `UInt(bits)` otherwise. -/
structure HType where
  is_int : Bool
  bits : Nat
deriving DecidableEq

/-- Halide `Int(bits)`. -/
def HType.int (bits : Nat) : HType := ⟨true, bits⟩

/-- Halide `UInt(bits)`. -/
def HType.uint (bits : Nat) : HType := ⟨false, bits⟩

/-- Smallest value of the type. -/
def HType.min (t : HType) : Int :=
  if t.is_int then -(2 ^ (t.bits - 1)) else 0

/-- Largest value of the type. -/
def HType.max (t : HType) : Int :=
  if t.is_int then 2 ^ (t.bits - 1) - 1 else 2 ^ t.bits - 1

/-- Reduction of a mathematical integer to the value the type stores: modulo
`2 ^ bits`, read in twos-complement for a signed type. Every arithmetic
result and every `cast` goes through it. -/
def HType.wrap (t : HType) (v : Int) : Int :=
  if t.is_int then (v + 2 ^ (t.bits - 1)) % 2 ^ t.bits - 2 ^ (t.bits - 1)
  else v % 2 ^ t.bits

/-- Halide `saturating_cast(t, v)`: clamp to the range of `t`. -/
def saturating_cast (t : HType) (v : Int) : Int :=
  Max.max t.min (Min.min t.max v)

/-- Halide `clamp(a, lo, hi) = max(min(a, hi), lo)`. -/
def clamp (a lo hi : Int) : Int :=
  Max.max (Min.min a hi) lo

/-- Halide `x >> s` on a value of type `t`: an arithmetic shift (floor division
by `2 ^ s`); a negative signed amount shifts left instead. -/
def shift_right (t : HType) (x s : Int) : Int :=
  if 0 ≤ s then x / 2 ^ s.toNat else t.wrap (x * 2 ^ (-s).toNat)

/-- Halide `x << s` on a value of type `t`; a negative signed amount shifts
right instead. -/
def shift_left (t : HType) (x s : Int) : Int :=
  if 0 ≤ s then t.wrap (x * 2 ^ s.toNat) else x / 2 ^ (-s).toNat

/-- Halide `a % b`: the remainder is never negative, and `a % 0 = 0`. -/
def halide_mod (a b : Int) : Int :=
  if b = 0 then 0 else a % b

/-- Number of zero bits of `v` above bit `i`, scanning down from bit `i - 1`
until the first set bit. -/
def clz_from (v : Nat) : Nat → Nat
  | 0 => 0
  | i + 1 => if v.testBit i then 0 else 1 + clz_from v i

/-- Halide `count_leading_zeros(x)` for `x` of type `t`: leading zero bits of
the `t.bits`-bit pattern of `x` (all of them when `x = 0`). -/
def count_leading_zeros (t : HType) (x : Int) : Int :=
  (clz_from (x % 2 ^ t.bits).toNat t.bits : Nat)

/-- Halide `widening_mul(a, b)`: the product in the type twice as wide (signed
when either operand is signed). -/
def widening_mul (ta : HType) (a : Int) (tb : HType) (b : Int) : Int :=
  HType.wrap ⟨ta.is_int || tb.is_int, 2 * Max.max ta.bits tb.bits⟩ (a * b)

/-- Function `multiply_2x_high(a, b)` (common_halide.cpp:85-94) for `a` of type `ta`
and `b` of type `tb`. -/
def multiply_2x_high (ta : HType) (a : Int) (tb : HType) (b : Int) : Int :=
  let t : HType := if ta.bits > tb.bits then ta else tb
  let wide : HType := ⟨ta.is_int || tb.is_int, 2 * Max.max ta.bits tb.bits⟩
  let ab_wide := widening_mul ta a tb b
  -- int nudge = 1 << (t.bits() - 2);
  let nudge : Int := (HType.int 32).wrap (2 ^ (t.bits - 2))
  let result := shift_right wide (wide.wrap (ab_wide + wide.wrap nudge)) ((t.bits : Int) - 1)
  saturating_cast t result

/-- Function `approx_log2(x, log2_precision)` (common_halide.cpp:100-120) for `x` of
type `tx` and a non-negative `int log2_precision`; the result has type `Int(32)`. -/
def approx_log2 (tx : HType) (x : Int) (log2_precision : Nat) : Int :=
  let i16 := HType.int 16
  let i32 := HType.int 32
  -- int precision = 1 << log2_precision;
  let precision : Int := i32.wrap (2 ^ log2_precision)
  let log2_max_x : Int := (tx.bits : Int) - 1
  let floor_log2 : Int := i16.wrap (i16.wrap log2_max_x - i16.wrap (count_leading_zeros tx x))
  let frac : Int :=
    i32.wrap (halide_mod (shift_right tx x (i16.wrap (floor_log2 - i16.wrap log2_precision)))
      (tx.wrap precision))
  if x > 0 then i32.wrap (i32.wrap (precision * i32.wrap floor_log2) + frac)
  else i32.wrap (-1)

/-- Function `approx_exp2(x, log2_precision_x, log2_precision_result)`
(common_halide.cpp:122-134) for `x` and `log2_precision_x` of type `Int(32)`. The local
`precision_x = 1 << log2_precision_x` of the source is never used and is left out. -/
def approx_exp2 (x log2_precision_x : Int) (log2_precision_result : Nat) : Int :=
  let i32 := HType.int 32
  let floor_x := clamp (shift_right i32 x log2_precision_x) (-31) 31
  let frac_x := i32.wrap (x - shift_left i32 floor_x log2_precision_x)
  let exp_floor_x := shift_left i32 (i32.wrap (2 ^ log2_precision_result)) floor_x
  i32.wrap (exp_floor_x +
    multiply_2x_high i32 exp_floor_x i32
      (shift_left i32 frac_x (i32.wrap (31 - log2_precision_x))))

end hannk

/-! Block cache of the adams2019 autoscheduler (src/autoschedulers/adams2019/Cache.h). -/

namespace Autoscheduler

/-- The process environment: the value of each variable, when it is set. -/
abbrev Environ := String → Option String

/-- Modelled from the spec: the body of `use_memoized_features` is not in src; Cache.h:18
documents it as true iff HL_USE_MEMOIZED_FEATURES=1. -/
def use_memoized_features (env : Environ) : Bool :=
  decide (env "HL_USE_MEMOIZED_FEATURES" = some "1")

/-- Modelled from the spec: the body of `verify_memoized_features` is not in src;
Cache.h:21 documents it as true iff HL_VERIFY_MEMOIZED_FEATURES=1. -/
def verify_memoized_features (env : Environ) : Bool :=
  decide (env "HL_VERIFY_MEMOIZED_FEATURES" = some "1")

/-- Modelled from the spec: the body of `is_memoize_blocks_enabled` is not in src;
Cache.h:24 documents it as true iff HL_MEMOIZE_BLOCKS=1. -/
def is_memoize_blocks_enabled (env : Environ) : Bool :=
  decide (env "HL_MEMOIZE_BLOCKS" = some "1")

/-- The `struct CachingOptions` (Cache.h:30-34) with its default member initialisers. -/
structure CachingOptions where
  cache_blocks : Bool := false
  cache_features : Bool := false
  verify_feature_caching : Bool := false
deriving DecidableEq

/-- Function `CachingOptions::MakeOptionsFromEnviron` (Cache.h:35-41). -/
def CachingOptions.MakeOptionsFromEnviron (env : Environ) : CachingOptions :=
  let options : CachingOptions := {}
  let options := { options with cache_blocks := is_memoize_blocks_enabled env }
  let options := { options with cache_features := use_memoized_features env }
  let options := { options with verify_feature_caching := verify_memoized_features env }
  options

/-- Identity of a graph node (`const FunctionDAG::Node *`). -/
abbrev Node := Nat

/-- Modelled from the spec: LoopNest.h is not in src. A loop-nest template is an immutable
plan fragment for one node at one vectorized dimension; it exposes its
vectorized-dimension index and is compared structurally. -/
structure LoopNest where
  node : Node
  vector_dim : Int
  size : List Int
deriving DecidableEq

/-- Modelled from the spec: State.h is not in src. A candidate state holds a collection of
loop-nest choices and determines, for each node, the vectorized dimension that applies
to it. -/
structure State where
  loop_nests : List LoopNest
  vector_dim : Node → Int

/-- Modelled from the spec: clone-and-extend, a new state with one more loop-nest
fragment appended; the template is shared, not copied or changed. -/
def State.make_child (state : State) (block : LoopNest) : State :=
  { state with loop_nests := state.loop_nests ++ [block] }

/-- Modelled from the spec: CostModel.h is not in src. The cost model predicts the
resource use of a state (the graph and the machine parameters are only forwarded to it). -/
abbrev CostModel := State → Int

/-- Value stored for a key in an association list (`std::map::find`). -/
def assoc_get {K V : Type} [DecidableEq K] (k : K) : List (K × V) → Option V
  | [] => none
  | (k', v) :: rest => if k' = k then some v else assoc_get k rest

/-- Association list with the value of `k` replaced, or added at the end when `k` has
none (`map[k] = v`). -/
def assoc_set {K V : Type} [DecidableEq K] (k : K) (v : V) : List (K × V) → List (K × V)
  | [] => [(k, v)]
  | (k', v') :: rest => if k' = k then (k, v) :: rest else (k', v') :: assoc_set k v rest

/-- Modelled from the spec: PerfectHashMap.h (`NodeMap`) is not in src. A map keyed by
node identity; `capacity` is `none` until the key space is pre-sized. -/
structure NodeMap (V : Type) where
  capacity : Option Nat := none
  entries : List (Node × V) := []

/-- Modelled from the spec: `make_large(n)` pre-sizes the key space to `n` nodes and keeps
what is stored. -/
def NodeMap.make_large {V : Type} (m : NodeMap V) (n : Nat) : NodeMap V :=
  { m with capacity := some n }

/-- Type `BlockCache` (Cache.h:44-45): Node -> (vector_dim -> vector<tilings>). -/
abbrev BlockCache := NodeMap (List (Int × List LoopNest))

/-- The `struct Cache` (Cache.h:50-55). -/
structure Cache where
  options : CachingOptions
  memoized_compute_root_blocks : BlockCache := {}
  cache_hits : Nat := 0
  cache_misses : Nat := 0

/-- Constructor `Cache::Cache(const CachingOptions &_options, size_t nodes_size)`
(Cache.h:58-63). -/
def Cache.construct (_options : CachingOptions) (nodes_size : Nat) : Cache :=
  let c : Cache := { options := _options }
  if c.options.cache_blocks then
    { c with memoized_compute_root_blocks := c.memoized_compute_root_blocks.make_large nodes_size }
  else c

/-- The templates stored for the key `(node, vector_dim)`, when the key has an entry. -/
def Cache.blocks (c : Cache) (node : Node) (vector_dim : Int) : Option (List LoopNest) :=
  (assoc_get node c.memoized_compute_root_blocks.entries).bind (assoc_get vector_dim)

/-- What one call of `add_memoized_blocks` does: the returned flag, the children handed to
`accept_child` in call order, the out-parameter `num_children`, and the cache with its
(mutable) counters afterwards. -/
structure AddResult where
  found : Bool
  accepted : List State
  num_children : Int
  cache : Cache

/-- Modelled from the spec: the body of `Cache::add_memoized_blocks` (declared at
Cache.h:70-77) is not in src. If template caching is disabled, or no entry exists for the
applicable vectorized-dimension key of the node, return false without touching stored data and
count a miss. Otherwise, for every stored template in order, synthesize a clone of `state`
extended with it, skip the child when its predicted resource use exceeds `memory_limit`,
hand every other child to `accept_child` and increment `num_children`; count one hit per
call and return true. -/
def Cache.add_memoized_blocks (c : Cache) (state : State) (node : Node) (num_children : Int)
    (cost_model : CostModel) (memory_limit : Int) : AddResult :=
  if !c.options.cache_blocks then
    ⟨false, [], num_children, { c with cache_misses := c.cache_misses + 1 }⟩
  else
    match c.blocks node (state.vector_dim node) with
    | none => ⟨false, [], num_children, { c with cache_misses := c.cache_misses + 1 }⟩
    | some blocks =>
      let children := (blocks.map state.make_child).filter
        (fun child => decide (cost_model child ≤ memory_limit))
      ⟨true, children, num_children + children.length,
        { c with cache_hits := c.cache_hits + 1 }⟩

/-- Modelled from the spec: one template stored under the key `(node, block.vector_dim)`,
appended to the list already stored for that key unless a structurally equal template is
already there. -/
def Cache.memoize_block (c : Cache) (node : Node) (block : LoopNest) : Cache :=
  let per_node := (assoc_get node c.memoized_compute_root_blocks.entries).getD []
  let blocks := (assoc_get block.vector_dim per_node).getD []
  if block ∈ blocks then c
  else
    { c with memoized_compute_root_blocks :=
        { c.memoized_compute_root_blocks with
          entries := assoc_set node (assoc_set block.vector_dim (blocks ++ [block]) per_node)
            c.memoized_compute_root_blocks.entries } }

/-- Modelled from the spec: the body of `Cache::memoize_blocks` (declared at Cache.h:80) is
not in src. If template caching is disabled, a no-op; otherwise every given template is
stored under its vectorized-dimension key for the node, in order (`templates` are the
blocks of the new root). -/
def Cache.memoize_blocks (c : Cache) (node : Node) (templates : List LoopNest) : Cache :=
  if !c.options.cache_blocks then c
  else templates.foldl (fun acc block => acc.memoize_block node block) c

/-- One cache operation of a scheduling run, with its arguments. -/
inductive CacheOp where
  | add_memoized_blocks (state : State) (node : Node) (num_children : Int)
      (cost_model : CostModel) (memory_limit : Int)
  | memoize_blocks (node : Node) (templates : List LoopNest)

/-- True for a lookup (`add_memoized_blocks`) operation. -/
def CacheOp.is_lookup : CacheOp → Bool
  | .add_memoized_blocks .. => true
  | .memoize_blocks .. => false

/-- The cache after one operation. -/
def Cache.step (c : Cache) : CacheOp → Cache
  | .add_memoized_blocks state node num_children cost_model memory_limit =>
    (c.add_memoized_blocks state node num_children cost_model memory_limit).cache
  | .memoize_blocks node templates => c.memoize_blocks node templates

/-- The cache after a sequence of operations. -/
def Cache.run (c : Cache) (ops : List CacheOp) : Cache :=
  ops.foldl Cache.step c

/-- Templates appended to a stored list one by one, each unless already present. -/
def append_novel (stored templates : List LoopNest) : List LoopNest :=
  templates.foldl (fun acc block => if block ∈ acc then acc else acc ++ [block]) stored

/-- Node `A` of the end-to-end scenario used in the examples below. -/
def scenario_A : Node := 0

/-- Template `T0` of the scenario: node `A`, vectorized dimension 0. -/
def scenario_T0 : LoopNest := ⟨0, 0, [8, 8]⟩

/-- Template `T1` of the scenario, the largest of the three. -/
def scenario_T1 : LoopNest := ⟨0, 0, [64, 64]⟩

/-- Template `T2` of the scenario. -/
def scenario_T2 : LoopNest := ⟨0, 0, [16, 4]⟩

/-- A state with no loop nest yet, whose applicable vectorized dimension is `d` for
every node. -/
def scenario_state (d : Int) : State := ⟨[], fun _ => d⟩

/-- A cost model for the scenario: the predicted resource use of a state is the sum of
the tile sizes of its loop nests. -/
def scenario_cost : CostModel :=
  fun s => (s.loop_nests.map (fun b => b.size.foldl (fun acc v => acc + v) 0)).foldl
    (fun acc v => acc + v) 0

end Autoscheduler

/-! Reference and pipeline of test/performance/matrix_multiplication.cpp. -/

namespace MatrixMultiplication

/-- Number of binary digits of `n`: the `L` with `2 ^ (L - 1) ≤ n < 2 ^ L`, and 0 for
`n = 0`. The first argument bounds the recursion. -/
def bit_length_aux : Nat → Nat → Nat
  | 0, _ => 0
  | fuel + 1, n => if n = 0 then 0 else 1 + bit_length_aux fuel (n / 2)

/-- Number of binary digits of `n`. -/
def bit_length (n : Nat) : Nat := bit_length_aux n n

/-- Nearest integer to `n / d` for `d > 0`, ties to the even integer. -/
def round_half_even (n : Int) (d : Nat) : Int :=
  let q := n / (d : Int)
  let r := n % (d : Int)
  if 2 * r < d then q else if (d : Int) < 2 * r then q + 1 else if q % 2 = 0 then q else q + 1

/-- A finite `float16_t` or `float` value, as an integer number of units of `2 ^ (-149)`:
every finite value of either IEEE 754 format is a multiple of the smallest `float`
subnormal `2 ^ (-149)` (the smallest `float16_t` subnormal is `2 ^ (-24)`). -/
abbrev FloatUnits := Int

/-- IEEE 754 round-to-nearest-even of the exact value `n * 2 ^ (-(149 + extra))` to a
format with a significand of `prec` bits and smallest subnormal `2 ^ (-149 + sub)`; the
result is in units of `2 ^ (-149)`. The exact value is divided by the quantum `2 ^ shift`
of its binade (`1 <<< shift`), rounded to an integer and scaled back. Overflow to infinity
is not modelled. -/
def round_float (prec sub extra : Nat) (n : Int) : FloatUnits :=
  let shift := Max.max (bit_length n.natAbs - prec) (extra + sub)
  round_half_even n (1 <<< shift) * ((1 <<< (shift - extra) : Nat) : Int)

end MatrixMultiplication

/-! ## Theorems -/

namespace hannk

theorem mul_box_bounds (M a b : Int) (hM : 0 < M) (ha : -M ≤ a) (ha' : a < M)
    (hb : -M ≤ b) (hb' : b < M) :
    -(M * M) + M ≤ a * b ∧ a * b ≤ M * M ∧ (¬(a = -M ∧ b = -M) → a * b ≤ M * M - M) := by
  refine ⟨?_, ?_, ?_⟩
  · rcases le_or_lt 0 a with h | h
    · nlinarith [mul_nonneg h (show 0 ≤ b + M by omega), mul_nonneg (show 0 ≤ M - 1 - a by omega) hM.le]
    · nlinarith [mul_nonneg (show 0 ≤ a + M by omega) (show 0 ≤ M - 1 - b by omega),
        mul_nonneg (show 0 ≤ -a by omega) (show 0 ≤ M - 1 - b by omega),
        mul_nonneg (show 0 ≤ a + M by omega) hM.le]
  · nlinarith [mul_nonneg (show 0 ≤ M - a by omega) (show 0 ≤ M + b by omega),
      mul_nonneg (show 0 ≤ M + a by omega) (show 0 ≤ M - b by omega)]
  · intro hne
    rcases le_or_lt 0 a with h | h
    · nlinarith [mul_nonneg h (show 0 ≤ M - 1 - b by omega), mul_nonneg (show 0 ≤ M - 1 - a by omega) hM.le]
    · rcases le_or_lt 0 b with h2 | h2
      · nlinarith [mul_nonneg (show 0 ≤ -a by omega) h2]
      · by_cases h3 : a = -M
        · have h4 : -M + 1 ≤ b := by
            rcases Int.lt_or_le (-M) b with h5 | h5
            · omega
            · exact absurd ⟨h3, by omega⟩ hne
          subst h3
          nlinarith
        · nlinarith [mul_nonneg (show 0 ≤ a + M - 1 by omega) (show 0 ≤ -b by omega),
            mul_nonneg (show 0 ≤ M + b by omega) hM.le]

theorem multiply_2x_high_core (B : Nat) (hB : B = 8 ∨ B = 16 ∨ B = 32) (a b : Int)
    (ha : -(2 ^ (B - 1)) ≤ a) (ha' : a < 2 ^ (B - 1))
    (hb : -(2 ^ (B - 1)) ≤ b) (hb' : b < 2 ^ (B - 1)) :
    (HType.int (2 * B)).wrap (a * b) = a * b ∧
    (HType.int (2 * B)).wrap (a * b + 2 ^ (B - 2)) = a * b + 2 ^ (B - 2) ∧
    multiply_2x_high (.int B) a (.int B) b
      = Max.max (-(2 ^ (B - 1))) (Min.min (2 ^ (B - 1) - 1) ((a * b + 2 ^ (B - 2)) / 2 ^ (B - 1))) ∧
    (¬(a = -(2 ^ (B - 1)) ∧ b = -(2 ^ (B - 1))) →
      multiply_2x_high (.int B) a (.int B) b = (a * b + 2 ^ (B - 2)) / 2 ^ (B - 1)) ∧
    (a = -(2 ^ (B - 1)) ∧ b = -(2 ^ (B - 1)) →
      multiply_2x_high (.int B) a (.int B) b = 2 ^ (B - 1) - 1 ∧
      (a * b + 2 ^ (B - 2)) / 2 ^ (B - 1) = 2 ^ (B - 1)) := by
  rcases hB with rfl | rfl | rfl
  all_goals
    obtain ⟨h1, h2, h3⟩ := mul_box_bounds _ a b (by norm_num) ha ha' hb hb'
    simp only [multiply_2x_high, widening_mul, saturating_cast, shift_right, HType.wrap,
      HType.int, HType.min, HType.max, gt_iff_lt, lt_self_iff_false, if_false, Bool.or_self,
      max_self, if_true] at *
    norm_num at *
    simp only [show Int.toNat 7 = 7 from rfl, show Int.toNat 15 = 15 from rfl,
      show Int.toNat 31 = 31 from rfl]
    norm_num
    refine ⟨?_, ?_, ?_, ?_, ?_⟩
    · generalize a * b = p at *
      omega
    · generalize a * b = p at *
      omega
    · generalize a * b = p at *
      omega
    · intro hne
      have h4 := h3 (fun h5 h6 => hne h5 h6)
      generalize a * b = p at *
      omega
    · rintro rfl rfl
      norm_num


theorem floor_div_two_pow (n : Int) (k : Nat) : ⌊(n : ℚ) / 2 ^ k⌋ = n / 2 ^ k := by
  have h := Rat.floor_intCast_div_natCast n (2 ^ k)
  simpa using h

theorem two_pow_pos_int (n : Nat) : (0 : Int) < 2 ^ n := by positivity

theorem two_pow_split (k p : Nat) (h : p ≤ k) : (2 : Int) ^ k = 2 ^ p * 2 ^ (k - p) := by
  rw [← pow_add]; congr 1; omega

/-- The `p` bits below the leading bit, when the leading bit is at or above position `p`. -/
theorem frac_shift_right (x : Int) (k p : Nat) (hk : 2 ^ k ≤ x) (hk' : x < 2 ^ (k + 1))
    (h : p ≤ k) :
    (x / 2 ^ (k - p)) % 2 ^ p = (x - 2 ^ k) * 2 ^ p / 2 ^ k ∧
    (x / 2 ^ (k - p)) % 2 ^ p = x / 2 ^ (k - p) - 2 ^ p := by
  have hd := two_pow_pos_int (k - p)
  have hp := two_pow_pos_int p
  have hs := two_pow_split k p h
  have hq1 : (2 : Int) ^ p ≤ x / 2 ^ (k - p) := by
    rw [Int.le_ediv_iff_mul_le hd, ← hs]; exact hk
  have hq2 : x / 2 ^ (k - p) < 2 ^ p + 2 ^ p := by
    rw [Int.ediv_lt_iff_lt_mul hd]
    have : (2 : Int) ^ (k + 1) = (2 ^ p + 2 ^ p) * 2 ^ (k - p) := by
      rw [pow_succ, hs]; ring
    rw [← this]; exact hk'
  have hm : (x / 2 ^ (k - p)) % 2 ^ p = x / 2 ^ (k - p) - 2 ^ p := by
    have e : x / 2 ^ (k - p) = (x / 2 ^ (k - p) - 2 ^ p) + 2 ^ p := by ring
    rw [e, Int.add_emod_self, ← e]
    exact Int.emod_eq_of_lt (by omega) (by omega)
  refine ⟨?_, hm⟩
  rw [hm, hs, mul_comm ((x - 2 ^ p * 2 ^ (k - p))) (2 ^ p), Int.mul_ediv_mul_of_pos _ _ hp]
  have : x - 2 ^ p * 2 ^ (k - p) = x + (-(2 ^ p)) * 2 ^ (k - p) := by ring
  rw [this, Int.add_mul_ediv_right _ _ hd.ne']
  ring

theorem frac_shift_left (x : Int) (k p : Nat) (hk : 2 ^ k ≤ x) (hk' : x < 2 ^ (k + 1))
    (h : k < p) :
    (x * 2 ^ (p - k)) % 2 ^ p = (x - 2 ^ k) * 2 ^ p / 2 ^ k ∧
    (x * 2 ^ (p - k)) % 2 ^ p = (x - 2 ^ k) * 2 ^ (p - k) := by
  have hd := two_pow_pos_int (p - k)
  have hkp := two_pow_pos_int k
  have hs := two_pow_split p k h.le
  have hm : (x * 2 ^ (p - k)) % 2 ^ p = (x - 2 ^ k) * 2 ^ (p - k) := by
    have e : x * 2 ^ (p - k) = (x - 2 ^ k) * 2 ^ (p - k) + 2 ^ p := by rw [hs]; ring
    rw [e, Int.add_emod_self]
    apply Int.emod_eq_of_lt
    · exact mul_nonneg (by omega) hd.le
    · rw [hs]
      have : x - 2 ^ k < 2 ^ k := by rw [pow_succ] at hk'; omega
      exact mul_lt_mul_of_pos_right this hd
  refine ⟨?_, hm⟩
  rw [hm, hs]
  have : (x - 2 ^ k) * (2 ^ k * 2 ^ (p - k)) = 2 ^ k * ((x - 2 ^ k) * 2 ^ (p - k)) := by ring
  rw [this, Int.mul_ediv_cancel_left _ hkp.ne']


theorem wrap_int_of_range (n : Nat) (hn : 1 ≤ n) (v : Int) (h1 : -(2 ^ (n - 1)) ≤ v)
    (h2 : v < 2 ^ (n - 1)) : (HType.int n).wrap v = v := by
  have e : (2 : Int) ^ n = 2 ^ (n - 1) + 2 ^ (n - 1) := by
    obtain ⟨m, rfl⟩ : ∃ m, n = m + 1 := ⟨n - 1, by omega⟩
    simp [pow_succ]; ring
  simp only [HType.wrap, HType.int, if_true]
  rw [Int.emod_eq_of_lt (by omega) (by omega)]
  ring

theorem wrap_of_nonneg (t : HType) (hn : 1 ≤ t.bits) (v : Int) (h1 : 0 ≤ v)
    (h2 : v < 2 ^ (t.bits - 1)) : t.wrap v = v := by
  have hpos := two_pow_pos_int (t.bits - 1)
  have e : (2 : Int) ^ t.bits = 2 ^ (t.bits - 1) + 2 ^ (t.bits - 1) := by
    obtain ⟨m, hm⟩ : ∃ m, t.bits = m + 1 := ⟨t.bits - 1, by omega⟩
    rw [hm]; simp [pow_succ]; ring
  unfold HType.wrap
  split
  · rw [Int.emod_eq_of_lt (by omega) (by omega)]; ring
  · exact Int.emod_eq_of_lt h1 (by omega)

theorem wrap_i16 (v : Int) (h1 : -32768 ≤ v) (h2 : v < 32768) : (HType.int 16).wrap v = v :=
  wrap_int_of_range 16 (by norm_num) v (by norm_num; exact h1) (by norm_num; exact h2)

theorem wrap_i32 (v : Int) (h1 : -2147483648 ≤ v) (h2 : v < 2147483648) :
    (HType.int 32).wrap v = v :=
  wrap_int_of_range 32 (by norm_num) v (by norm_num; exact h1) (by norm_num; exact h2)

theorem testBit_top (v k : Nat) (hk : 2 ^ k ≤ v) (hk' : v < 2 ^ (k + 1)) :
    v.testBit k = true := by
  rw [Nat.testBit_to_div_mod]
  have h1 : v / 2 ^ k = 1 := by
    apply Nat.div_eq_of_lt_le
    · simpa using hk
    · rw [pow_succ] at hk'; omega
  simp [h1]

theorem clz_from_eq (v k : Nat) (hk : 2 ^ k ≤ v) (hk' : v < 2 ^ (k + 1)) :
    ∀ n, k < n → clz_from v n = n - 1 - k := by
  intro n
  induction n with
  | zero => intro h; omega
  | succ i ih =>
    intro h
    rcases Nat.lt_or_ge k i with h1 | h1
    · have hf : v.testBit i = false := by
        apply Nat.testBit_lt_two_pow
        exact lt_of_lt_of_le hk' (Nat.pow_le_pow_right (by norm_num) h1)
      simp only [clz_from, hf]
      rw [ih h1]
      simp
      omega
    · have hki : k = i := by omega
      subst hki
      simp [clz_from, testBit_top v k hk hk']


theorem lt_bits_of_le (x : Int) (k n : Nat) (hk : 2 ^ k ≤ x) (hx : x < 2 ^ n) : k < n := by
  by_contra h
  have h1 : (2 : Int) ^ n ≤ 2 ^ k := pow_le_pow_right₀ (by norm_num) (by omega)
  omega

theorem count_leading_zeros_eq (tx : HType) (x : Int) (k : Nat) (hx : x < 2 ^ tx.bits)
    (hk : 2 ^ k ≤ x) (hk' : x < 2 ^ (k + 1)) :
    count_leading_zeros tx x = (tx.bits : Int) - 1 - k := by
  have hkB := lt_bits_of_le x k tx.bits hk hx
  have hpos : 0 ≤ x := le_trans (two_pow_pos_int k).le hk
  unfold count_leading_zeros
  rw [Int.emod_eq_of_lt hpos hx]
  have h1 : 2 ^ k ≤ x.toNat := by
    have : ((2 ^ k : Nat) : Int) ≤ x := by push_cast; exact hk
    omega
  have h2 : x.toNat < 2 ^ (k + 1) := by
    have : x < ((2 ^ (k + 1) : Nat) : Int) := by push_cast; exact hk'
    omega
  rw [clz_from_eq x.toNat k h1 h2 tx.bits hkB]
  omega

theorem approx_log2_eq (tx : HType) (x : Int) (p k : Nat) (hB : tx.bits ≤ 64)
    (hx : x < 2 ^ tx.bits) (hk : 2 ^ k ≤ x) (hk' : x < 2 ^ (k + 1))
    (hp : p + 1 < tx.bits) (hp30 : p ≤ 30) (hfit : (k + 1) * 2 ^ p ≤ 2 ^ 31) :
    approx_log2 tx x p = 2 ^ p * k + (x - 2 ^ k) * 2 ^ p / 2 ^ k ∧
    0 ≤ (x - 2 ^ k) * 2 ^ p / 2 ^ k ∧ (x - 2 ^ k) * 2 ^ p / 2 ^ k < 2 ^ p := by
  have hkB := lt_bits_of_le x k tx.bits hk hx
  have hxpos : 0 < x := lt_of_lt_of_le (two_pow_pos_int k) hk
  have hclz := count_leading_zeros_eq tx x k hx hk hk'
  have hP := two_pow_pos_int p
  have hP30 : (2 : Int) ^ p ≤ 2 ^ 30 := pow_le_pow_right₀ (by norm_num) hp30
  have hPB : (2 : Int) ^ (p + 1) ≤ 2 ^ (tx.bits - 1) := pow_le_pow_right₀ (by norm_num) (by omega)
  have hfitZ : ((k : Int) + 1) * 2 ^ p ≤ 2 ^ 31 := by exact_mod_cast hfit
  -- the fraction, in both shift directions
  have hfrac : halide_mod (shift_right tx x ((k : Int) - p)) (2 ^ p)
      = (x - 2 ^ k) * 2 ^ p / 2 ^ k ∧
      0 ≤ (x - 2 ^ k) * 2 ^ p / 2 ^ k ∧ (x - 2 ^ k) * 2 ^ p / 2 ^ k < 2 ^ p := by
    unfold halide_mod shift_right
    rw [if_neg hP.ne']
    rcases Nat.lt_or_ge k p with h | h
    · have hs : ¬ (0 ≤ (k : Int) - p) := by omega
      have hn : (-((k : Int) - p)).toNat = p - k := by omega
      obtain ⟨e1, e2⟩ := frac_shift_left x k p hk hk' h
      have hlt : x * 2 ^ (p - k) < 2 ^ (p + 1) := by
        have : (2 : Int) ^ (p + 1) = 2 ^ (k + 1) * 2 ^ (p - k) := by
          rw [← pow_add]; congr 1; omega
        rw [this]
        exact mul_lt_mul_of_pos_right hk' (two_pow_pos_int _)
      rw [if_neg hs, hn, wrap_of_nonneg tx (by omega) _
        (mul_nonneg hxpos.le (two_pow_pos_int _).le) (lt_of_lt_of_le hlt hPB)]
      refine ⟨e1, ?_, ?_⟩
      · rw [← e1]; exact Int.emod_nonneg _ hP.ne'
      · rw [← e1]; exact Int.emod_lt_of_pos _ hP
    · have hs : (0 ≤ (k : Int) - p) := by omega
      have hn : ((k : Int) - p).toNat = k - p := by omega
      obtain ⟨e1, e2⟩ := frac_shift_right x k p hk hk' h
      rw [if_pos hs, hn]
      refine ⟨e1, ?_, ?_⟩
      · rw [← e1]; exact Int.emod_nonneg _ hP.ne'
      · rw [← e1]; exact Int.emod_lt_of_pos _ hP
  obtain ⟨hf1, hf2, hf3⟩ := hfrac
  refine ⟨?_, hf2, hf3⟩
  have hmul : (2 : Int) ^ p * k + 2 ^ p ≤ 2 ^ 31 := by linarith
  have hmul0 : 0 ≤ (2 : Int) ^ p * k := mul_nonneg hP.le (Int.ofNat_nonneg k)
  have hk0 : (0 : Int) ≤ k := Int.ofNat_nonneg k
  have hkB64 : (k : Int) < 64 := by omega
  have hB1 : (2 : Int) ≤ tx.bits ∧ (tx.bits : Int) ≤ 64 := by omega
  have hp0 : (0 : Int) ≤ p ∧ (p : Int) ≤ 30 := by omega
  have hP31 : (2 : Int) ^ p < 2147483648 := by norm_num at hP30; omega
  have hPB2 : (2 : Int) ^ p < 2 ^ (tx.bits - 1) := by rw [pow_succ] at hPB; omega
  have hf31 : (x - 2 ^ k) * 2 ^ p / 2 ^ k < 2147483648 := by omega
  have hmul31 : (2 : Int) ^ p * k < 2147483648 ∧
      2 ^ p * k + (x - 2 ^ k) * 2 ^ p / 2 ^ k < 2147483648 := by
    norm_num at hmul; omega
  unfold approx_log2
  simp only [hclz, if_pos hxpos]
  rw [wrap_i16 ((tx.bits : Int) - 1) (by omega) (by omega),
    wrap_i16 ((tx.bits : Int) - 1 - k) (by omega) (by omega),
    wrap_i16 ((tx.bits : Int) - 1 - ((tx.bits : Int) - 1 - k)) (by omega) (by omega),
    wrap_i16 (p : Int) (by omega) (by omega)]
  have e : (tx.bits : Int) - 1 - ((tx.bits : Int) - 1 - k) = k := by ring
  rw [e, wrap_i16 ((k : Int) - p) (by omega) (by omega),
    wrap_i32 (2 ^ p) (by omega) hP31, wrap_of_nonneg tx (by omega) _ hP.le hPB2, hf1,
    wrap_i32 (k : Int) (by omega) (by omega),
    wrap_i32 ((x - 2 ^ k) * 2 ^ p / 2 ^ k) (by omega) hf31,
    wrap_i32 (2 ^ p * k) (by omega) hmul31.1,
    wrap_i32 _ (by omega) hmul31.2]


theorem shift_right_natCast (t : HType) (x : Int) (n : Nat) :
    shift_right t x (n : Int) = x / 2 ^ n := by
  unfold shift_right
  rw [if_pos (Int.ofNat_nonneg n), Int.toNat_natCast]

theorem shift_left_natCast (t : HType) (x : Int) (n : Nat) :
    shift_left t x (n : Int) = t.wrap (x * 2 ^ n) := by
  unfold shift_left
  rw [if_pos (Int.ofNat_nonneg n), Int.toNat_natCast]

theorem shift_right_eq_shiftRight (t : HType) (x : Int) (n : Nat) :
    shift_right t x (n : Int) = x >>> n := by
  rw [shift_right_natCast, Int.shiftRight_eq_div_pow]
  push_cast
  rfl

theorem multiply_2x_high_i32 (a b : Int) (ha : -2147483648 ≤ a) (ha' : a < 2147483648)
    (hb : 0 ≤ b) (hb' : b < 2147483648) :
    multiply_2x_high (.int 32) a (.int 32) b = (a * b + 2 ^ 30) / 2 ^ 31 := by
  have h := (multiply_2x_high_core 32 (Or.inr (Or.inr rfl)) a b (by norm_num; exact ha)
    (by norm_num; exact ha') (by norm_num; omega) (by norm_num; exact hb')).2.2.2.1
    (by norm_num; intro _; omega)
  simpa using h

/-- The rounded high product of `2 ^ k` with the shifted fraction is exact. -/
theorem exp2_product (x f : Int) (p k : Nat) (hp : p ≤ 31)
    (hk : 2 ^ k ≤ x) (hk' : x < 2 ^ (k + 1)) (hf : (x - 2 ^ k) * 2 ^ p / 2 ^ k = f) :
    (2 ^ k * (f * 2 ^ (31 - p)) + 2 ^ 30) / 2 ^ 31 = x / 2 ^ (k - p) * 2 ^ (k - p) - 2 ^ k := by
  have h31 : (2 : Int) ^ 31 = 2 ^ p * 2 ^ (31 - p) := two_pow_split 31 p hp
  rcases Nat.lt_or_ge k p with h | h
  · obtain ⟨e1, e2⟩ := frac_shift_left x k p hk hk' h
    rw [e1, hf] at e2
    have hd : k - p = 0 := by omega
    have e3 : (2 : Int) ^ k * (f * 2 ^ (31 - p)) = 2 ^ 31 * (x - 2 ^ k) := by
      rw [e2, h31, two_pow_split p k h.le]; ring
    rw [e3, hd, Int.add_comm, Int.add_mul_ediv_left _ _ (by norm_num)]
    norm_num
  · obtain ⟨e1, e2⟩ := frac_shift_right x k p hk hk' h
    rw [e1, hf] at e2
    have e3 : (2 : Int) ^ k * (f * 2 ^ (31 - p)) = 2 ^ 31 * (f * 2 ^ (k - p)) := by
      rw [h31, two_pow_split k p h]; ring
    rw [e3, Int.add_comm, Int.add_mul_ediv_left _ _ (by norm_num), e2, two_pow_split k p h]
    norm_num
    ring

theorem approx_exp2_of_log (x : Int) (p k : Nat) (hx : x < 2 ^ 31) (hp : p ≤ 29)
    (hk : 2 ^ k ≤ x) (hk' : x < 2 ^ (k + 1)) (hfit : (k + 1) * 2 ^ p ≤ 2 ^ 31) :
    approx_exp2 (approx_log2 (.int 32) x p) p 0 = x / 2 ^ (k - p) * 2 ^ (k - p) := by
  obtain ⟨hL, hf0, hf1⟩ := approx_log2_eq (.int 32) x p k (by simp [HType.int])
    (lt_trans hx (by simp [HType.int])) hk hk' (by simp [HType.int]; omega) (by omega) hfit
  have hk31 : k < 31 := lt_bits_of_le x k 31 hk hx
  have hxpos : 0 < x := lt_of_lt_of_le (two_pow_pos_int k) hk
  have hP := two_pow_pos_int p
  have hK := two_pow_pos_int k
  have hK30 : (2 : Int) ^ k ≤ 2 ^ 30 := pow_le_pow_right₀ (by norm_num) (by omega)
  have hP29 : (2 : Int) ^ p ≤ 2 ^ 29 := pow_le_pow_right₀ (by norm_num) hp
  have hfitZ : ((k : Int) + 1) * 2 ^ p ≤ 2 ^ 31 := by exact_mod_cast hfit
  have hkp0 : 0 ≤ (k : Int) * 2 ^ p := mul_nonneg (Int.ofNat_nonneg k) hP.le
  have hkp1 : (k : Int) * 2 ^ p < 2147483648 := by norm_num at hfitZ; linarith
  have s9 := exp2_product x _ p k (by omega) hk hk' rfl
  generalize (x - 2 ^ k) * 2 ^ p / 2 ^ k = f at *
  rw [hL]
  have h31 : (2 : Int) ^ 31 = 2 ^ p * 2 ^ (31 - p) := two_pow_split 31 p (by omega)
  have hQ := two_pow_pos_int (31 - p)
  have hfq : f * 2 ^ (31 - p) < 2147483648 := by
    have : f * 2 ^ (31 - p) < 2 ^ 31 := by rw [h31]; exact mul_lt_mul_of_pos_right hf1 hQ
    norm_num at this; exact this
  have hfq0 : 0 ≤ f * 2 ^ (31 - p) := mul_nonneg hf0 hQ.le
  have hle : x / 2 ^ (k - p) * 2 ^ (k - p) ≤ x := Int.ediv_mul_le _ (two_pow_pos_int _).ne'
  have hge : 0 ≤ x / 2 ^ (k - p) * 2 ^ (k - p) :=
    mul_nonneg (Int.ediv_nonneg hxpos.le (two_pow_pos_int _).le) (two_pow_pos_int _).le
  have hk30 : (k : Int) ≤ 30 := by omega
  have hk0 : (0 : Int) ≤ k := Int.ofNat_nonneg k
  have hp29 : (p : Int) ≤ 29 := by omega
  have hp0 : (0 : Int) ≤ p := Int.ofNat_nonneg p
  have hf31 : f < 2147483648 := by norm_num at hP29; omega
  have hK31 : (2 : Int) ^ k < 2147483648 := by norm_num at hK30; omega
  have hx31 : x / 2 ^ (k - p) * 2 ^ (k - p) < 2147483648 := by norm_num at hx; omega
  have hsub : (31 - (p : Int)).toNat = 31 - p := by omega
  have hsub0 : 0 ≤ 31 - (p : Int) := by omega
  have hsub1 : 31 - (p : Int) < 2147483648 := by omega
  have e1 : 2 ^ p * (k : Int) + f - k * 2 ^ p = f := by ring
  have e2 : (2 : Int) ^ k + (x / 2 ^ (k - p) * 2 ^ (k - p) - 2 ^ k)
      = x / 2 ^ (k - p) * 2 ^ (k - p) := by ring
  have e3 : (2 ^ p * (k : Int) + f) / 2 ^ p = k := by
    rw [Int.add_comm, Int.add_mul_ediv_left _ _ hP.ne', Int.ediv_eq_zero_of_lt hf0 hf1]
    simp
  have e4 : clamp (k : Int) (-31) 31 = k := by
    unfold clamp
    rw [min_eq_left (by omega), max_eq_left (by omega)]
  have e5 : shift_left (.int 32) f (31 - (p : Int)) = f * 2 ^ (31 - p) := by
    unfold shift_left
    rw [if_pos hsub0, hsub, wrap_i32 _ (le_trans (by norm_num) hfq0) hfq]
  unfold approx_exp2
  simp only []
  rw [shift_right_natCast, e3, e4, shift_left_natCast _ (k : Int) p,
    wrap_i32 _ (le_trans (by norm_num) hkp0) hkp1, e1,
    wrap_i32 f (le_trans (by norm_num) hf0) hf31,
    wrap_i32 (2 ^ 0) (by norm_num) (by norm_num), shift_left_natCast _ _ k, pow_zero, one_mul,
    wrap_i32 (2 ^ k) (le_trans (by norm_num) hK.le) hK31,
    wrap_i32 (31 - (p : Int)) (le_trans (by norm_num) hsub0) hsub1, e5,
    multiply_2x_high_i32 _ _ (le_trans (by norm_num) hK.le) hK31 hfq0 hfq, s9, e2,
    wrap_i32 _ (le_trans (by norm_num) hge) hx31]


/-- C7: for signed `B`-bit `a` and `b` (`B` one of 8, 16, 32), neither the widened
product nor the nudged sum overflows the `2B`-bit type, and `multiply_2x_high a b`
is `floor((a * b + 2 ^ (B - 2)) / 2 ^ (B - 1))` clamped to
`[-2 ^ (B - 1), 2 ^ (B - 1) - 1]`. The clamp changes the value exactly when
`a = b = -2 ^ (B - 1)`, where the result is `2 ^ (B - 1) - 1`. The right shift by `B - 1`
is the arithmetic shift, which is floor division by `2 ^ (B - 1)`. -/
theorem multiply_2x_high_rounds (B : Nat) (hB : B = 8 ∨ B = 16 ∨ B = 32) (a b : Int)
    (ha : (HType.int B).min ≤ a ∧ a ≤ (HType.int B).max)
    (hb : (HType.int B).min ≤ b ∧ b ≤ (HType.int B).max) :
    (HType.int (2 * B)).wrap (a * b) = a * b ∧
    (HType.int (2 * B)).wrap (a * b + 2 ^ (B - 2)) = a * b + 2 ^ (B - 2) ∧
    multiply_2x_high (.int B) a (.int B) b
      = Max.max (-(2 ^ (B - 1)))
          (Min.min (2 ^ (B - 1) - 1) ⌊((a * b + 2 ^ (B - 2) : Int) : ℚ) / 2 ^ (B - 1)⌋) ∧
    (multiply_2x_high (.int B) a (.int B) b ≠ ⌊((a * b + 2 ^ (B - 2) : Int) : ℚ) / 2 ^ (B - 1)⌋
      ↔ a = -(2 ^ (B - 1)) ∧ b = -(2 ^ (B - 1))) ∧
    (a = -(2 ^ (B - 1)) ∧ b = -(2 ^ (B - 1)) →
      multiply_2x_high (.int B) a (.int B) b = 2 ^ (B - 1) - 1) ∧
    (∀ v : Int, shift_right (.int (2 * B)) v ((B : Int) - 1) = v >>> (B - 1) ∧
      v >>> (B - 1) = ⌊(v : ℚ) / 2 ^ (B - 1)⌋) := by
  have hshift : ∀ v : Int, shift_right (.int (2 * B)) v ((B : Int) - 1) = v >>> (B - 1) ∧
      v >>> (B - 1) = ⌊(v : ℚ) / 2 ^ (B - 1)⌋ := by
    intro v
    have hB1 : ((B : Int) - 1) = ((B - 1 : Nat) : Int) := by omega
    rw [hB1, shift_right_eq_shiftRight, floor_div_two_pow, Int.shiftRight_eq_div_pow]
    push_cast
    exact ⟨rfl, rfl⟩
  have ha1 : -(2 ^ (B - 1)) ≤ a := by simpa [HType.min, HType.int] using ha.1
  have ha2 : a < 2 ^ (B - 1) := by
    have := ha.2; simp only [HType.max, HType.int, if_true] at this; omega
  have hb1 : -(2 ^ (B - 1)) ≤ b := by simpa [HType.min, HType.int] using hb.1
  have hb2 : b < 2 ^ (B - 1) := by
    have := hb.2; simp only [HType.max, HType.int, if_true] at this; omega
  obtain ⟨h1, h2, h3, h4, h5⟩ := multiply_2x_high_core B hB a b ha1 ha2 hb1 hb2
  rw [floor_div_two_pow]
  refine ⟨h1, h2, h3, ?_, fun h => (h5 h).1, hshift⟩
  constructor
  · intro hne
    by_contra hcon
    exact hne (h4 hcon)
  · intro h
    obtain ⟨e1, e2⟩ := h5 h
    rw [e1, e2]
    omega

/-- Instance of C7 at the one saturating input of the 8-bit type. -/
theorem multiply_2x_high_rounds_witness :
    ((HType.int 8).min ≤ (-128 : Int) ∧ (-128 : Int) ≤ (HType.int 8).max) ∧
    multiply_2x_high (.int 8) (-128) (.int 8) (-128) = 2 ^ (8 - 1) - 1 :=
  ⟨by decide,
    (multiply_2x_high_rounds 8 (Or.inl rfl) (-128) (-128) (by decide) (by decide)).2.2.2.2.1
      ⟨by norm_num, by norm_num⟩⟩


/-- C8 (amended): for `x` of a type of at most 64 bits and a precision `p` with
`p + 1 < bits`: when `x ≤ 0` the result is `-1`; when `x > 0`, with
`k = floor(log2 x)` (that is `2 ^ k ≤ x < 2 ^ (k + 1)`), and provided the 32-bit
result does not overflow (`p ≤ 30` and `(k + 1) * 2 ^ p ≤ 2 ^ 31`), then
`k = (bits - 1) - clz(x)`, `approx_log2 x p = 2 ^ p * k + floor((x - 2 ^ k) * 2 ^ p / 2 ^ k)`,
its floor quotient by `2 ^ p` is `k`, the fractional part lies in `[0, 2 ^ p)` and the
result is non-negative. The proviso always holds for types of at most 16 bits, and for
types of at most 32 bits when `p ≤ 26`. -/
theorem approx_log2_spec (tx : HType) (x : Int) (p : Nat) (hB : tx.bits ≤ 64)
    (hx : tx.min ≤ x ∧ x ≤ tx.max) (hp : p + 1 < tx.bits) :
    (x ≤ 0 → approx_log2 tx x p = -1 ∧ approx_log2 tx x p < 0) ∧
    (∀ k : Nat, 2 ^ k ≤ x → x < 2 ^ (k + 1) → p ≤ 30 → (k + 1) * 2 ^ p ≤ 2 ^ 31 →
      k = Nat.log 2 x.toNat ∧
      (k : Int) = ((tx.bits : Int) - 1) - count_leading_zeros tx x ∧
      approx_log2 tx x p = 2 ^ p * k + ⌊(((x - 2 ^ k) * 2 ^ p : Int) : ℚ) / 2 ^ k⌋ ∧
      ⌊((approx_log2 tx x p : Int) : ℚ) / 2 ^ p⌋ = k ∧
      0 ≤ approx_log2 tx x p - 2 ^ p * k ∧ approx_log2 tx x p - 2 ^ p * k < 2 ^ p ∧
      0 ≤ approx_log2 tx x p) ∧
    (∀ k : Nat, 2 ^ k ≤ x → x < 2 ^ (k + 1) → tx.bits ≤ 16 ∨ (tx.bits ≤ 32 ∧ p ≤ 26) →
      p ≤ 30 ∧ (k + 1) * 2 ^ p ≤ 2 ^ 31) := by
  have hx2 : x < 2 ^ tx.bits := by
    have h := hx.2
    have e : (2 : Int) ^ tx.bits = 2 ^ (tx.bits - 1) + 2 ^ (tx.bits - 1) := by
      obtain ⟨m, hm⟩ : ∃ m, tx.bits = m + 1 := ⟨tx.bits - 1, by omega⟩
      rw [hm]; simp [pow_succ]; ring
    have hpos := two_pow_pos_int (tx.bits - 1)
    unfold HType.max at h
    split at h <;> omega
  refine ⟨?_, ?_, ?_⟩
  · intro hneg
    have h1 : approx_log2 tx x p = -1 := by
      unfold approx_log2
      simp only []
      rw [if_neg (by omega)]
      exact wrap_i32 _ (by norm_num) (by norm_num)
    rw [h1]
    exact ⟨rfl, by norm_num⟩
  · intro k hk hk' hp30 hfit
    obtain ⟨hL, hf0, hf1⟩ := approx_log2_eq tx x p k hB hx2 hk hk' hp hp30 hfit
    have hclz := count_leading_zeros_eq tx x k hx2 hk hk'
    have hP := two_pow_pos_int p
    have hk0 : (0 : Int) ≤ k := Int.ofNat_nonneg k
    have hlog : k = Nat.log 2 x.toNat := by
      symm
      apply Nat.log_eq_of_pow_le_of_lt_pow
      · have : ((2 ^ k : Nat) : Int) ≤ x := by push_cast; exact hk
        omega
      · have : x < ((2 ^ (k + 1) : Nat) : Int) := by push_cast; exact hk'
        omega
    rw [floor_div_two_pow, floor_div_two_pow, hL, hclz]
    refine ⟨hlog, by ring, rfl, ?_, ?_, ?_, ?_⟩
    · rw [Int.add_comm, Int.add_mul_ediv_left _ _ hP.ne', Int.ediv_eq_zero_of_lt hf0 hf1]
      simp
    · linarith
    · linarith
    · have := mul_nonneg hP.le hk0
      linarith
  · intro k hk hk' hsmall
    have hkB := lt_bits_of_le x k tx.bits hk hx2
    rcases hsmall with h16 | ⟨h32, h26⟩
    · refine ⟨by omega, ?_⟩
      calc (k + 1) * 2 ^ p ≤ 16 * 2 ^ 14 :=
            Nat.mul_le_mul (by omega) (Nat.pow_le_pow_right (by norm_num) (by omega))
        _ ≤ 2 ^ 31 := by norm_num
    · refine ⟨by omega, ?_⟩
      calc (k + 1) * 2 ^ p ≤ 32 * 2 ^ 26 :=
            Nat.mul_le_mul (by omega) (Nat.pow_le_pow_right (by norm_num) h26)
        _ ≤ 2 ^ 31 := by norm_num

/-- Instance of C8 at the 32-bit input `x = 1000` with precision 4 (`k = 9`). -/
theorem approx_log2_spec_witness :
    ((HType.int 32).min ≤ (1000 : Int) ∧ (1000 : Int) ≤ (HType.int 32).max) ∧
    approx_log2 (.int 32) 1000 4
      = 2 ^ 4 * ((9 : Nat) : Int) + ⌊((((1000 : Int) - 2 ^ 9) * 2 ^ 4 : Int) : ℚ) / 2 ^ 9⌋ :=
  ⟨by decide,
    ((approx_log2_spec (.int 32) 1000 4 (by decide) (by decide) (by decide)).2.1 9
      (by norm_num) (by norm_num) (by norm_num) (by norm_num)).2.2.1⟩

/-- Counterexample to C8 as stated: a positive 32-bit `x = 2 ^ 30` (so `k = 30`) with
precision `p = 30`, which satisfies `p + 1 < 32`; `precision * floor_log2` overflows
`int` and the result is negative. -/
theorem approx_log2_overflow_counterexample :
    ((HType.int 32).min ≤ (2 : Int) ^ 30 ∧ (2 : Int) ^ 30 ≤ (HType.int 32).max) ∧
    30 + 1 < (HType.int 32).bits ∧
    ((2 : Int) ^ 30 ≤ 2 ^ 30 ∧ (2 : Int) ^ 30 < 2 ^ (30 + 1)) ∧
    approx_log2 (.int 32) (2 ^ 30) 30 = -2147483648 ∧
    ¬ (0 ≤ approx_log2 (.int 32) (2 ^ 30) 30) ∧
    approx_log2 (.int 32) (2 ^ 30) 30 ≠ 2 ^ 30 * 30 + ((2 : Int) ^ 30 - 2 ^ 30) * 2 ^ 30 / 2 ^ 30 := by
  decide

/-- C9 (amended): for a 32-bit `x` with `1 ≤ x < 2 ^ 31`, a precision `p ≤ 29` and
`k = floor(log2 x)`, provided `approx_log2 x p` does not overflow
(`(k + 1) * 2 ^ p ≤ 2 ^ 31`), `approx_exp2 (approx_log2 x p) p 0` is `x` with its
lowest `max(0, k - p)` bits cleared. Hence it is `x` when `x < 2 ^ (p + 1)`, it is `x`
when `x` is a power of two, and always `x - 2 ^ (k - p) < result ≤ x`. The proviso always
holds when `p ≤ 26`. -/
theorem approx_exp2_inverts_approx_log2 (x : Int) (p k : Nat) (hx : 1 ≤ x ∧ x < 2 ^ 31)
    (hp : p ≤ 29) (hk : 2 ^ k ≤ x ∧ x < 2 ^ (k + 1)) :
    ((k + 1) * 2 ^ p ≤ 2 ^ 31 →
      approx_exp2 (approx_log2 (.int 32) x p) p 0 = x - x % 2 ^ (k - p) ∧
      (∀ i : Nat, (approx_exp2 (approx_log2 (.int 32) x p) p 0).toNat.testBit i
        = (decide (k - p ≤ i) && x.toNat.testBit i)) ∧
      (x < 2 ^ (p + 1) → approx_exp2 (approx_log2 (.int 32) x p) p 0 = x) ∧
      (x = 2 ^ k → approx_exp2 (approx_log2 (.int 32) x p) p 0 = x) ∧
      x - 2 ^ (k - p) < approx_exp2 (approx_log2 (.int 32) x p) p 0 ∧
      approx_exp2 (approx_log2 (.int 32) x p) p 0 ≤ x) ∧
    (p ≤ 26 → (k + 1) * 2 ^ p ≤ 2 ^ 31) := by
  refine ⟨?_, fun h26 => ?_⟩
  swap
  · have hk31 : k < 31 := lt_bits_of_le x k 31 hk.1 hx.2
    calc (k + 1) * 2 ^ p ≤ 32 * 2 ^ 26 :=
          Nat.mul_le_mul (by omega) (Nat.pow_le_pow_right (by norm_num) h26)
      _ ≤ 2 ^ 31 := by norm_num
  intro hfit
  have h := approx_exp2_of_log x p k hx.2 hp hk.1 hk.2 hfit
  have hD := two_pow_pos_int (k - p)
  have hmod0 := Int.emod_nonneg x hD.ne'
  have hmod1 := Int.emod_lt_of_pos x hD
  have hdm := Int.emod_add_ediv x (2 ^ (k - p))
  have he : x / 2 ^ (k - p) * 2 ^ (k - p) = x - x % 2 ^ (k - p) := by
    rw [mul_comm]; linarith
  rw [h, he]
  refine ⟨rfl, ?_, ?_, ?_, by omega, by omega⟩
  · intro i
    rw [← he]
    obtain ⟨n, rfl⟩ := Int.eq_ofNat_of_zero_le (show 0 ≤ x by omega)
    have e1 : (((n : Nat) : Int) / 2 ^ (k - p) * 2 ^ (k - p)).toNat
        = 2 ^ (k - p) * (n >>> (k - p)) := by
      have : ((n : Int) / 2 ^ (k - p) * 2 ^ (k - p))
          = ((2 ^ (k - p) * (n / 2 ^ (k - p)) : Nat) : Int) := by
        push_cast; ring
      rw [this, Int.toNat_natCast, Nat.shiftRight_eq_div_pow]
    rw [e1, Nat.testBit_mul_pow_two, Nat.testBit_shiftRight, Int.toNat_natCast]
    by_cases hi : k - p ≤ i
    · have e2 : k - p + (i - (k - p)) = i := by omega
      simp [hi, e2]
    · simp [hi]
  · intro hlt
    have hkp : k - p = 0 := by
      have : k < p + 1 := lt_bits_of_le x k (p + 1) hk.1 hlt
      omega
    rw [hkp]
    simp
  · intro hpow
    have hdvd : (2 : Int) ^ (k - p) ∣ x := by
      rw [hpow]; exact pow_dvd_pow 2 (Nat.sub_le k p)
    rw [Int.emod_eq_zero_of_dvd hdvd]
    simp

/-- Instance of C9 at `x = 1000`, `p = 4` (`k = 9`): the five low bits are cleared. -/
theorem approx_exp2_inverts_approx_log2_witness :
    ((1 : Int) ≤ 1000 ∧ (1000 : Int) < 2 ^ 31) ∧
    approx_exp2 (approx_log2 (.int 32) 1000 4) 4 0 = 1000 - 1000 % 2 ^ (9 - 4) :=
  ⟨by norm_num,
    ((approx_exp2_inverts_approx_log2 1000 4 9 (by norm_num) (by norm_num) (by norm_num)).1
      (by norm_num)).1⟩

/-- Counterexample to C9 as stated: `x = 16` is a power of two below `2 ^ (p + 1)` for
`p = 29`, yet `approx_log2 16 29 = 2 ^ 29 * 4` overflows `int` and the round trip
returns 0 instead of 16. -/
theorem approx_exp2_overflow_counterexample :
    ((1 : Int) ≤ 16 ∧ (16 : Int) < 2 ^ 31) ∧ (29 : Nat) ≤ 29 ∧
    ((2 : Int) ^ 4 ≤ 16 ∧ (16 : Int) < 2 ^ (4 + 1)) ∧
    approx_log2 (.int 32) 16 29 = -2147483648 ∧
    approx_exp2 (approx_log2 (.int 32) 16 29) 29 0 = 0 ∧
    approx_exp2 (approx_log2 (.int 32) 16 29) 29 0 ≠ 16 := by
  decide

end hannk

namespace Autoscheduler

theorem assoc_get_set_same {K V : Type} [DecidableEq K] (k : K) (v : V) (l : List (K × V)) :
    assoc_get k (assoc_set k v l) = some v := by
  induction l with
  | nil => simp [assoc_set, assoc_get]
  | cons hd tl ih =>
    obtain ⟨k', v'⟩ := hd
    by_cases h : k' = k
    · simp [assoc_set, assoc_get, h]
    · simp [assoc_set, assoc_get, h, ih]

theorem assoc_get_set_other {K V : Type} [DecidableEq K] (k k' : K) (v : V)
    (l : List (K × V)) (h : k' ≠ k) : assoc_get k' (assoc_set k v l) = assoc_get k' l := by
  induction l with
  | nil => simp [assoc_set, assoc_get, Ne.symm h]
  | cons hd tl ih =>
    obtain ⟨k'', v''⟩ := hd
    by_cases h2 : k'' = k
    · subst h2
      simp [assoc_set, assoc_get, Ne.symm h]
    · by_cases h3 : k'' = k'
      · subst h3
        simp [assoc_set, assoc_get, h2]
      · simp [assoc_set, assoc_get, h2, h3, ih]

theorem memoize_block_options (c : Cache) (node : Node) (block : LoopNest) :
    (c.memoize_block node block).options = c.options ∧
    (c.memoize_block node block).cache_hits = c.cache_hits ∧
    (c.memoize_block node block).cache_misses = c.cache_misses := by
  unfold Cache.memoize_block
  simp only []
  split <;> simp

theorem memoize_blocks_options (c : Cache) (node : Node) (templates : List LoopNest) :
    (c.memoize_blocks node templates).options = c.options ∧
    (c.memoize_blocks node templates).cache_hits = c.cache_hits ∧
    (c.memoize_blocks node templates).cache_misses = c.cache_misses := by
  have hfold : ∀ (l : List LoopNest) (c0 : Cache),
      (l.foldl (fun acc block => acc.memoize_block node block) c0).options = c0.options ∧
      (l.foldl (fun acc block => acc.memoize_block node block) c0).cache_hits = c0.cache_hits ∧
      (l.foldl (fun acc block => acc.memoize_block node block) c0).cache_misses
        = c0.cache_misses := by
    intro l
    induction l with
    | nil => intro c0; simp
    | cons b tl ih =>
      intro c0
      simp only [List.foldl_cons]
      obtain ⟨h1, h2, h3⟩ := memoize_block_options c0 node b
      obtain ⟨h4, h5, h6⟩ := ih (c0.memoize_block node b)
      exact ⟨h4.trans h1, h5.trans h2, h6.trans h3⟩
  unfold Cache.memoize_blocks
  split
  · simp
  · exact hfold templates c

theorem blocks_memoize_block_same (c : Cache) (node : Node) (block : LoopNest)
    (stored : List LoopNest) (h : (c.blocks node block.vector_dim).getD [] = stored) :
    (c.memoize_block node block).blocks node block.vector_dim
      = some (if block ∈ stored then stored else stored ++ [block]) := by
  unfold Cache.blocks at h
  unfold Cache.memoize_block
  simp only []
  cases h1 : assoc_get node c.memoized_compute_root_blocks.entries with
  | none =>
    rw [h1] at h
    simp only [Option.none_bind, Option.getD_none] at h
    subst h
    simp [Cache.blocks, assoc_get_set_same, assoc_get, assoc_set]
  | some per_node =>
    rw [h1] at h
    simp only [Option.some_bind] at h
    cases h2 : assoc_get block.vector_dim per_node with
    | none =>
      rw [h2] at h
      simp only [Option.getD_none] at h
      subst h
      simp [Cache.blocks, assoc_get_set_same, h2]
    | some old =>
      rw [h2] at h
      simp only [Option.getD_some] at h
      subst h
      by_cases hm : block ∈ old
      · simp [Cache.blocks, hm, h1, h2]
      · simp [Cache.blocks, hm, h2, assoc_get_set_same]

theorem blocks_memoize_block_other (c : Cache) (node node' : Node) (block : LoopNest)
    (d : Int) (h : node' ≠ node ∨ d ≠ block.vector_dim) :
    (c.memoize_block node block).blocks node' d = c.blocks node' d := by
  unfold Cache.memoize_block
  simp only []
  split
  · rfl
  · unfold Cache.blocks
    simp only []
    by_cases hn : node' = node
    · subst hn
      have hd : d ≠ block.vector_dim := by
        rcases h with h | h
        · exact absurd rfl h
        · exact h
      rw [assoc_get_set_same]
      simp only [Option.some_bind]
      rw [assoc_get_set_other _ _ _ _ hd]
      cases h1 : assoc_get node' c.memoized_compute_root_blocks.entries <;> simp [assoc_get]
    · rw [assoc_get_set_other _ _ _ _ hn]

theorem blocks_foldl_same (node : Node) (d : Int) (templates : List LoopNest)
    (hd : ∀ t ∈ templates, t.vector_dim = d) :
    ∀ (c : Cache) (stored : List LoopNest), c.blocks node d = some stored →
      (templates.foldl (fun acc block => acc.memoize_block node block) c).blocks node d
        = some (append_novel stored templates) := by
  induction templates with
  | nil => intro c stored h; simpa [append_novel] using h
  | cons b tl ih =>
    intro c stored h
    have hb : b.vector_dim = d := hd b (List.mem_cons_self _ _)
    have h1 := blocks_memoize_block_same c node b stored (by rw [hb, h]; rfl)
    rw [hb] at h1
    have h2 := ih (fun t ht => hd t (List.mem_cons_of_mem _ ht)) (c.memoize_block node b) _ h1
    simp only [List.foldl_cons]
    rw [h2]
    simp [append_novel]

theorem blocks_foldl_other (node node' : Node) (d : Int) (templates : List LoopNest)
    (hd : ∀ t ∈ templates, node' ≠ node ∨ d ≠ t.vector_dim) :
    ∀ (c : Cache),
      (templates.foldl (fun acc block => acc.memoize_block node block) c).blocks node' d
        = c.blocks node' d := by
  induction templates with
  | nil => intro c; rfl
  | cons b tl ih =>
    intro c
    simp only [List.foldl_cons]
    rw [ih (fun t ht => hd t (List.mem_cons_of_mem _ ht))]
    exact blocks_memoize_block_other c node node' b d (hd b (List.mem_cons_self _ _))

/-- After a store of a non-empty list of templates of one vectorized dimension, the key
holds what it held before followed by the templates that were not yet there. -/
theorem blocks_memoize_blocks (c : Cache) (node : Node) (d : Int) (templates : List LoopNest)
    (hc : c.options.cache_blocks = true) (hne : templates ≠ [])
    (hd : ∀ t ∈ templates, t.vector_dim = d) :
    (c.memoize_blocks node templates).blocks node d
      = some (append_novel ((c.blocks node d).getD []) templates) := by
  unfold Cache.memoize_blocks
  rw [hc]
  simp only [Bool.not_true, Bool.false_eq_true, if_false]
  cases templates with
  | nil => exact absurd rfl hne
  | cons b tl =>
    have hb : b.vector_dim = d := hd b (List.mem_cons_self _ _)
    have h1 := blocks_memoize_block_same c node b _ (rfl)
    rw [hb] at h1
    simp only [List.foldl_cons]
    rw [blocks_foldl_same node d tl (fun t ht => hd t (List.mem_cons_of_mem _ ht)) _ _ h1]
    simp [append_novel]

theorem append_novel_nil_of_nodup (templates : List LoopNest) (h : templates.Nodup) :
    ∀ stored : List LoopNest, (∀ t ∈ templates, t ∉ stored) →
      append_novel stored templates = stored ++ templates := by
  induction templates with
  | nil => intro stored _; simp [append_novel]
  | cons b tl ih =>
    intro stored hs
    have hb : b ∉ stored := hs b (List.mem_cons_self _ _)
    rw [List.nodup_cons] at h
    have := ih h.2 (stored ++ [b]) (by
      intro t ht hmem
      rw [List.mem_append] at hmem
      rcases hmem with hmem | hmem
      · exact hs t (List.mem_cons_of_mem _ ht) hmem
      · simp at hmem
        subst hmem
        exact h.1 ht)
    simp only [append_novel, List.foldl_cons, hb, if_false] at this ⊢
    rw [this]
    simp


theorem add_memoized_blocks_const (c : Cache) (state : State) (node : Node)
    (num_children : Int) (cost_model : CostModel) (memory_limit : Int) :
    (c.add_memoized_blocks state node num_children cost_model memory_limit).cache.options
      = c.options ∧
    (c.add_memoized_blocks state node num_children cost_model
        memory_limit).cache.memoized_compute_root_blocks
      = c.memoized_compute_root_blocks := by
  unfold Cache.add_memoized_blocks
  split
  · exact ⟨rfl, rfl⟩
  · split <;> exact ⟨rfl, rfl⟩

theorem add_memoized_blocks_counters (c : Cache) (state : State) (node : Node)
    (num_children : Int) (cost_model : CostModel) (memory_limit : Int) :
    ((c.add_memoized_blocks state node num_children cost_model memory_limit).found = true ∧
      (c.add_memoized_blocks state node num_children cost_model memory_limit).cache.cache_hits
        = c.cache_hits + 1 ∧
      (c.add_memoized_blocks state node num_children cost_model memory_limit).cache.cache_misses
        = c.cache_misses) ∨
    ((c.add_memoized_blocks state node num_children cost_model memory_limit).found = false ∧
      (c.add_memoized_blocks state node num_children cost_model memory_limit).cache.cache_hits
        = c.cache_hits ∧
      (c.add_memoized_blocks state node num_children cost_model memory_limit).cache.cache_misses
        = c.cache_misses + 1) := by
  unfold Cache.add_memoized_blocks
  split
  · exact Or.inr ⟨rfl, rfl, rfl⟩
  · split
    · exact Or.inr ⟨rfl, rfl, rfl⟩
    · exact Or.inl ⟨rfl, rfl, rfl⟩

theorem step_disabled (c : Cache) (op : CacheOp) (h : c.options.cache_blocks = false) :
    (c.step op).options = c.options ∧
    (c.step op).memoized_compute_root_blocks = c.memoized_compute_root_blocks := by
  cases op with
  | add_memoized_blocks state node num_children cost_model memory_limit =>
    exact add_memoized_blocks_const c state node num_children cost_model memory_limit
  | memoize_blocks node templates =>
    simp [Cache.step, Cache.memoize_blocks, h]

theorem run_disabled (ops : List CacheOp) :
    ∀ c : Cache, c.options.cache_blocks = false →
      (c.run ops).options = c.options ∧
      (c.run ops).memoized_compute_root_blocks = c.memoized_compute_root_blocks := by
  induction ops with
  | nil => intro c _; exact ⟨rfl, rfl⟩
  | cons op tl ih =>
    intro c h
    obtain ⟨h1, h2⟩ := step_disabled c op h
    obtain ⟨h3, h4⟩ := ih (c.step op) (by rw [h1]; exact h)
    simp only [Cache.run, List.foldl_cons] at h3 h4 ⊢
    exact ⟨h3.trans h1, h4.trans h2⟩

theorem step_counters (c : Cache) (op : CacheOp) :
    (c.step op).cache_hits + (c.step op).cache_misses
      = c.cache_hits + c.cache_misses + (if op.is_lookup then 1 else 0) ∧
    c.cache_hits ≤ (c.step op).cache_hits ∧ c.cache_misses ≤ (c.step op).cache_misses := by
  cases op with
  | add_memoized_blocks state node num_children cost_model memory_limit =>
    simp only [Cache.step, CacheOp.is_lookup, if_true]
    rcases add_memoized_blocks_counters c state node num_children cost_model memory_limit
      with ⟨_, h1, h2⟩ | ⟨_, h1, h2⟩ <;> rw [h1, h2] <;> omega
  | memoize_blocks node templates =>
    obtain ⟨_, h1, h2⟩ := memoize_blocks_options c node templates
    simp only [Cache.step, CacheOp.is_lookup]
    rw [h1, h2]
    simp

theorem run_counters (ops : List CacheOp) :
    ∀ c : Cache,
      (c.run ops).cache_hits + (c.run ops).cache_misses
        = c.cache_hits + c.cache_misses + ops.countP CacheOp.is_lookup ∧
      c.cache_hits ≤ (c.run ops).cache_hits ∧ c.cache_misses ≤ (c.run ops).cache_misses := by
  induction ops with
  | nil => intro c; simp [Cache.run]
  | cons op tl ih =>
    intro c
    obtain ⟨h1, h2, h3⟩ := step_counters c op
    obtain ⟨h4, h5, h6⟩ := ih (c.step op)
    simp only [Cache.run, List.foldl_cons] at h4 h5 h6 ⊢
    rw [List.countP_cons]
    refine ⟨?_, le_trans h2 h5, le_trans h3 h6⟩
    rw [h4, h1]
    omega

theorem run_append (c : Cache) (ops more : List CacheOp) :
    c.run (ops ++ more) = (c.run ops).run more := by
  simp [Cache.run, List.foldl_append]

/-- C1: a cache constructed with `cache_blocks = false` stays inert over every sequence of
operations: its block map is still the empty, unsized map, and every further
`add_memoized_blocks` call returns false, hands no child to `accept_child`, leaves
`num_children` unchanged and leaves the block map as it was. -/
theorem add_memoized_blocks_disabled (o : CachingOptions) (n : Nat)
    (h : o.cache_blocks = false) (ops : List CacheOp) :
    ((Cache.construct o n).run ops).memoized_compute_root_blocks = {} ∧
    ∀ (state : State) (node : Node) (num_children : Int) (cost_model : CostModel)
      (memory_limit : Int),
      (((Cache.construct o n).run ops).add_memoized_blocks state node num_children cost_model
        memory_limit).found = false ∧
      (((Cache.construct o n).run ops).add_memoized_blocks state node num_children cost_model
        memory_limit).accepted = [] ∧
      (((Cache.construct o n).run ops).add_memoized_blocks state node num_children cost_model
        memory_limit).num_children = num_children ∧
      (((Cache.construct o n).run ops).add_memoized_blocks state node num_children cost_model
        memory_limit).cache.memoized_compute_root_blocks
        = ((Cache.construct o n).run ops).memoized_compute_root_blocks := by
  have h0 : (Cache.construct o n).options = o ∧
      (Cache.construct o n).memoized_compute_root_blocks = {} := by
    simp [Cache.construct, h]
  obtain ⟨h1, h2⟩ := run_disabled ops (Cache.construct o n) (by rw [h0.1]; exact h)
  refine ⟨h2.trans h0.2, ?_⟩
  intro state node num_children cost_model memory_limit
  have hoff : ((Cache.construct o n).run ops).options.cache_blocks = false := by
    rw [h1, h0.1]; exact h
  simp [Cache.add_memoized_blocks, hoff]


/-- Instance of C1: default options (caching off), a store and then two lookups. -/
theorem add_memoized_blocks_disabled_witness :
    ({} : CachingOptions).cache_blocks = false ∧
    ((Cache.construct {} 10).run
      [CacheOp.memoize_blocks scenario_A [scenario_T0, scenario_T1, scenario_T2],
        CacheOp.add_memoized_blocks (scenario_state 0) scenario_A 0 scenario_cost 1000]
      ).memoized_compute_root_blocks = {} ∧
    (((Cache.construct {} 10).run
      [CacheOp.memoize_blocks scenario_A [scenario_T0, scenario_T1, scenario_T2],
        CacheOp.add_memoized_blocks (scenario_state 0) scenario_A 0 scenario_cost 1000]
      ).add_memoized_blocks (scenario_state 0) scenario_A 5 scenario_cost 1000).found = false :=
  ⟨rfl,
    (add_memoized_blocks_disabled {} 10 rfl
      [CacheOp.memoize_blocks scenario_A [scenario_T0, scenario_T1, scenario_T2],
        CacheOp.add_memoized_blocks (scenario_state 0) scenario_A 0 scenario_cost 1000]).1,
    ((add_memoized_blocks_disabled {} 10 rfl
      [CacheOp.memoize_blocks scenario_A [scenario_T0, scenario_T1, scenario_T2],
        CacheOp.add_memoized_blocks (scenario_state 0) scenario_A 0 scenario_cost 1000]).2
      (scenario_state 0) scenario_A 5 scenario_cost 1000).1⟩

/-- C2 (amended): with template caching enabled, a store of a non-empty list of templates
of vectorized dimension `d` for `node`, followed by a lookup for the same key, returns
found = true and accepts, in stored order, one child per stored template whose child does
not exceed the memory limit: all stored templates when none exceeds it. The stored list
is what the key held before followed by the new templates not yet there, so it is exactly
`templates` for a fresh key and duplicate-free templates. A lookup for the same node at
another vectorized dimension that was never stored returns false. -/
theorem memoize_blocks_then_add_memoized_blocks (c : Cache) (node : Node) (d : Int)
    (templates : List LoopNest) (state : State) (num_children : Int)
    (cost_model : CostModel) (memory_limit : Int)
    (hc : c.options.cache_blocks = true) (hne : templates ≠ [])
    (hd : ∀ t ∈ templates, t.vector_dim = d) (hs : state.vector_dim node = d) :
    (c.memoize_blocks node templates).blocks node d
      = some (append_novel ((c.blocks node d).getD []) templates) ∧
    ((c.memoize_blocks node templates).add_memoized_blocks state node num_children cost_model
      memory_limit).found = true ∧
    ((c.memoize_blocks node templates).add_memoized_blocks state node num_children cost_model
      memory_limit).accepted
      = ((append_novel ((c.blocks node d).getD []) templates).map state.make_child).filter
          (fun child => decide (cost_model child ≤ memory_limit)) ∧
    ((∀ t ∈ append_novel ((c.blocks node d).getD []) templates,
        cost_model (state.make_child t) ≤ memory_limit) →
      ((c.memoize_blocks node templates).add_memoized_blocks state node num_children
        cost_model memory_limit).accepted
        = (append_novel ((c.blocks node d).getD []) templates).map state.make_child) ∧
    (c.blocks node d = none → templates.Nodup →
      append_novel ((c.blocks node d).getD []) templates = templates) ∧
    (∀ (d2 : Int) (state2 : State), d2 ≠ d → c.blocks node d2 = none →
      state2.vector_dim node = d2 →
      ((c.memoize_blocks node templates).add_memoized_blocks state2 node num_children
        cost_model memory_limit).found = false) := by
  have hb := blocks_memoize_blocks c node d templates hc hne hd
  have ho : (c.memoize_blocks node templates).options.cache_blocks = true := by
    rw [(memoize_blocks_options c node templates).1]; exact hc
  have hr : (c.memoize_blocks node templates).add_memoized_blocks state node num_children
      cost_model memory_limit
      = ⟨true,
          ((append_novel ((c.blocks node d).getD []) templates).map state.make_child).filter
            (fun child => decide (cost_model child ≤ memory_limit)),
          num_children +
            (((append_novel ((c.blocks node d).getD []) templates).map state.make_child).filter
              (fun child => decide (cost_model child ≤ memory_limit))).length,
          { c.memoize_blocks node templates with
            cache_hits := (c.memoize_blocks node templates).cache_hits + 1 }⟩ := by
    unfold Cache.add_memoized_blocks
    rw [ho, hs, hb]
    rfl
  refine ⟨hb, by rw [hr], by rw [hr], ?_, ?_, ?_⟩
  · intro hfit
    rw [hr]
    simp only []
    rw [List.filter_eq_self]
    intro child hchild
    rw [List.mem_map] at hchild
    obtain ⟨t, ht, rfl⟩ := hchild
    simpa using hfit t ht
  · intro hnone hnodup
    rw [hnone]
    simpa using append_novel_nil_of_nodup templates hnodup [] (by simp)
  · intro d2 state2 hne2 hnone hs2
    have hb2 : (c.memoize_blocks node templates).blocks node d2 = none := by
      unfold Cache.memoize_blocks
      rw [hc]
      simp only [Bool.not_true, Bool.false_eq_true, if_false]
      rw [blocks_foldl_other node node d2 templates
        (fun t ht => Or.inr (by rw [hd t ht]; exact hne2)), hnone]
    unfold Cache.add_memoized_blocks
    rw [ho, hs2, hb2]
    rfl

/-- Instance of C2: the store of `[T0, T1, T2]` for `(A, 0)` into a fresh cache
and a lookup under a memory limit that all three children respect. -/
theorem memoize_blocks_then_add_memoized_blocks_witness :
    (((Cache.construct ⟨true, false, false⟩ 10).memoize_blocks scenario_A
        [scenario_T0, scenario_T1, scenario_T2]).add_memoized_blocks
      (scenario_state 0) scenario_A 0 scenario_cost 1000).found = true :=
  (memoize_blocks_then_add_memoized_blocks (Cache.construct ⟨true, false, false⟩ 10)
    scenario_A 0 [scenario_T0, scenario_T1, scenario_T2] (scenario_state 0) 0 scenario_cost
    1000 rfl (by decide) (by decide) rfl).2.1

/-- Counterexample to C2 as stated: after the store of `[T0, T1, T2]` for `(A, 0)`, a
lookup for `(A, 0)` under memory limit 100 is a hit but yields only the children of `T0`
and `T2`: the child of `T1` (predicted use 128) is rejected. -/
theorem lookup_after_store_drops_over_limit :
    ((Cache.construct ⟨true, false, false⟩ 10).memoize_blocks scenario_A
        [scenario_T0, scenario_T1, scenario_T2]).blocks scenario_A 0
      = some [scenario_T0, scenario_T1, scenario_T2] ∧
    (((Cache.construct ⟨true, false, false⟩ 10).memoize_blocks scenario_A
        [scenario_T0, scenario_T1, scenario_T2]).add_memoized_blocks
      (scenario_state 0) scenario_A 0 scenario_cost 100).found = true ∧
    ((((Cache.construct ⟨true, false, false⟩ 10).memoize_blocks scenario_A
        [scenario_T0, scenario_T1, scenario_T2]).add_memoized_blocks
      (scenario_state 0) scenario_A 0 scenario_cost 100).accepted.map State.loop_nests)
      = [[scenario_T0], [scenario_T2]] ∧
    (((Cache.construct ⟨true, false, false⟩ 10).memoize_blocks scenario_A
        [scenario_T0, scenario_T1, scenario_T2]).add_memoized_blocks
      (scenario_state 0) scenario_A 0 scenario_cost 100).num_children = 2 := by
  decide

/-- C3: the constructor copies the options, starts both counters at 0, and pre-sizes the
block map to the node count exactly when `cache_blocks` is set; otherwise the block map
is left as the empty, unsized map. In both cases nothing is stored yet. -/
theorem construct_spec (o : CachingOptions) (n : Nat) :
    (Cache.construct o n).options = o ∧
    (Cache.construct o n).cache_hits = 0 ∧
    (Cache.construct o n).cache_misses = 0 ∧
    ((Cache.construct o n).memoized_compute_root_blocks
        = NodeMap.make_large ({} : BlockCache) n ↔ o.cache_blocks = true) ∧
    ((Cache.construct o n).memoized_compute_root_blocks.capacity = some n
        ↔ o.cache_blocks = true) ∧
    ((Cache.construct o n).memoized_compute_root_blocks = ({} : BlockCache)
        ↔ o.cache_blocks = false) ∧
    (Cache.construct o n).memoized_compute_root_blocks.entries = [] := by
  cases h : o.cache_blocks <;> simp [Cache.construct, NodeMap.make_large, h]

/-- C4: the three options default to false, and `MakeOptionsFromEnviron` sets each field
from its own helper, hence from its own environment variable only: `cache_blocks` from
HL_MEMOIZE_BLOCKS, `cache_features` from HL_USE_MEMOIZED_FEATURES and
`verify_feature_caching` from HL_VERIFY_MEMOIZED_FEATURES, each true iff its variable is
"1"; all eight combinations of the three settings are produced. -/
theorem MakeOptionsFromEnviron_spec :
    ({} : CachingOptions) = ⟨false, false, false⟩ ∧
    (∀ env : Environ,
      (CachingOptions.MakeOptionsFromEnviron env).cache_blocks = is_memoize_blocks_enabled env ∧
      (CachingOptions.MakeOptionsFromEnviron env).cache_features = use_memoized_features env ∧
      (CachingOptions.MakeOptionsFromEnviron env).verify_feature_caching
        = verify_memoized_features env) ∧
    (∀ env : Environ,
      ((CachingOptions.MakeOptionsFromEnviron env).cache_blocks = true
        ↔ env "HL_MEMOIZE_BLOCKS" = some "1") ∧
      ((CachingOptions.MakeOptionsFromEnviron env).cache_features = true
        ↔ env "HL_USE_MEMOIZED_FEATURES" = some "1") ∧
      ((CachingOptions.MakeOptionsFromEnviron env).verify_feature_caching = true
        ↔ env "HL_VERIFY_MEMOIZED_FEATURES" = some "1")) ∧
    (∀ b1 b2 b3 : Bool, ∃ env : Environ,
      (env "HL_MEMOIZE_BLOCKS" = some "1" ↔ b1 = true) ∧
      (env "HL_USE_MEMOIZED_FEATURES" = some "1" ↔ b2 = true) ∧
      (env "HL_VERIFY_MEMOIZED_FEATURES" = some "1" ↔ b3 = true) ∧
      CachingOptions.MakeOptionsFromEnviron env = ⟨b1, b2, b3⟩) := by
  refine ⟨rfl, fun env => ⟨rfl, rfl, rfl⟩, fun env => ?_, ?_⟩
  · simp [CachingOptions.MakeOptionsFromEnviron, is_memoize_blocks_enabled,
      use_memoized_features, verify_memoized_features]
  · intro b1 b2 b3
    refine ⟨fun name =>
      if name = "HL_MEMOIZE_BLOCKS" then (if b1 then some "1" else none)
      else if name = "HL_USE_MEMOIZED_FEATURES" then (if b2 then some "1" else none)
      else if name = "HL_VERIFY_MEMOIZED_FEATURES" then (if b3 then some "1" else none)
      else none, ?_⟩
    cases b1 <;> cases b2 <;> cases b3 <;>
      simp [CachingOptions.MakeOptionsFromEnviron, is_memoize_blocks_enabled,
        use_memoized_features, verify_memoized_features]

/-- C5: from construction on, over every sequence of cache operations, `cache_hits +
cache_misses` equals the number of `add_memoized_blocks` calls made; neither counter ever
decreases; each `add_memoized_blocks` call adds one to `cache_hits` and nothing to
`cache_misses` when it returns true, and one to `cache_misses` and nothing to `cache_hits`
when it returns false; `memoize_blocks` leaves both counters alone. -/
theorem cache_counters_spec (o : CachingOptions) (n : Nat) (ops : List CacheOp) :
    ((Cache.construct o n).run ops).cache_hits + ((Cache.construct o n).run ops).cache_misses
      = ops.countP CacheOp.is_lookup ∧
    (∀ more : List CacheOp,
      ((Cache.construct o n).run ops).cache_hits
        ≤ ((Cache.construct o n).run (ops ++ more)).cache_hits ∧
      ((Cache.construct o n).run ops).cache_misses
        ≤ ((Cache.construct o n).run (ops ++ more)).cache_misses) ∧
    (∀ (c : Cache) (state : State) (node : Node) (num_children : Int) (cost_model : CostModel)
      (memory_limit : Int),
      ((c.add_memoized_blocks state node num_children cost_model memory_limit).found = true ∧
        (c.add_memoized_blocks state node num_children cost_model memory_limit).cache.cache_hits
          = c.cache_hits + 1 ∧
        (c.add_memoized_blocks state node num_children cost_model
          memory_limit).cache.cache_misses = c.cache_misses) ∨
      ((c.add_memoized_blocks state node num_children cost_model memory_limit).found = false ∧
        (c.add_memoized_blocks state node num_children cost_model memory_limit).cache.cache_hits
          = c.cache_hits ∧
        (c.add_memoized_blocks state node num_children cost_model
          memory_limit).cache.cache_misses = c.cache_misses + 1)) ∧
    (∀ (c : Cache) (node : Node) (templates : List LoopNest),
      (c.memoize_blocks node templates).cache_hits = c.cache_hits ∧
      (c.memoize_blocks node templates).cache_misses = c.cache_misses) := by
  have h0 : (Cache.construct o n).cache_hits = 0 ∧ (Cache.construct o n).cache_misses = 0 := by
    cases h : o.cache_blocks <;> simp [Cache.construct, h]
  refine ⟨?_, ?_, add_memoized_blocks_counters, fun c node templates =>
    (memoize_blocks_options c node templates).2⟩
  · have h1 := (run_counters ops (Cache.construct o n)).1
    rw [h1, h0.1, h0.2]
    simp
  · intro more
    rw [run_append]
    exact (run_counters more ((Cache.construct o n).run ops)).2

end Autoscheduler

namespace MatrixMultiplication

theorem bit_length_aux_spec : ∀ (fuel n : Nat), n ≤ fuel → 0 < n →
    2 ^ (bit_length_aux fuel n - 1) ≤ n ∧ n < 2 ^ bit_length_aux fuel n := by
  intro fuel
  induction fuel with
  | zero => intro n h1 h2; omega
  | succ f ih =>
    intro n h1 h2
    have hn : n ≠ 0 := by omega
    simp only [bit_length_aux, hn, if_false]
    by_cases h : n / 2 = 0
    · have h1n : n = 1 := by omega
      subst h1n
      cases f <;> simp [bit_length_aux]
    · obtain ⟨h3, h4⟩ := ih (n / 2) (by omega) (by omega)
      have hpos : 0 < bit_length_aux f (n / 2) := by
        cases f with
        | zero => omega
        | succ g => simp [bit_length_aux, h]
      have e : 1 + bit_length_aux f (n / 2) - 1 = (bit_length_aux f (n / 2) - 1) + 1 := by omega
      rw [e, pow_succ, Nat.add_comm 1, pow_succ]
      omega

/-- The binary digits of a positive `n`: `2 ^ (L - 1) ≤ n < 2 ^ L` for `L = bit_length n`. -/
theorem bit_length_spec (n : Nat) (h : 0 < n) :
    2 ^ (bit_length n - 1) ≤ n ∧ n < 2 ^ bit_length n :=
  bit_length_aux_spec n n (le_refl n) h

/-- The rounded quotient is a nearest integer: it is within half of `n / d`. -/
theorem round_half_even_nearest (n : Int) (d : Nat) (hd : 0 < d) :
    |2 * (n - round_half_even n d * d)| ≤ d := by
  have hd0 : (0 : Int) < d := by exact_mod_cast hd
  have h1 := Int.emod_nonneg n hd0.ne'
  have h2 := Int.emod_lt_of_pos n hd0
  have h3 := Int.emod_add_ediv n d
  unfold round_half_even
  simp only []
  rw [abs_le]
  split
  · constructor <;> nlinarith
  · split
    · constructor <;> nlinarith
    · split <;> constructor <;> nlinarith

/-- The rounding written with powers of two. -/
theorem round_float_eq (prec sub extra : Nat) (n : Int) :
    round_float prec sub extra n
      = round_half_even n (2 ^ Max.max (bit_length n.natAbs - prec) (extra + sub))
          * 2 ^ (Max.max (bit_length n.natAbs - prec) (extra + sub) - extra) := by
  simp [round_float, Nat.shiftLeft_eq]

end MatrixMultiplication
